import Mathlib

/-!
Shallow embedding of the bitmap-backed inverted index (`src/src/lib.rs`) and
proofs of the specified properties.  The source type is
`BitmapIndex { index: HashMap<String, Vec<u32>> }`; here the map is an
association list with unique keys (key order is unobservable through the
API, matching a hash map), and `u32` words are `Nat` values kept below
`2 ^ 32`.  Panics (`unwrap` on a missing key, out-of-bounds indexing) are
modelled by `Option` results.
-/

set_option autoImplicit false

namespace BitWasm

/-- The index state: an association list from string keys to word vectors. -/
structure BitmapIndex where
  index : List (String × List Nat)
deriving DecidableEq

namespace BitmapIndex

/-- Source `BitmapIndex::new()`: the empty index. -/
def new : BitmapIndex := ⟨[]⟩

/-- Source `HashMap::get`: the value bound to `k`, if any. -/
def lookup : List (String × List Nat) → String → Option (List Nat)
  | [], _ => none
  | (k', v) :: rest, k => if k' = k then some v else lookup rest k

/-- Store a value for a key: replace an existing binding in place, or append
a fresh one (the write-back of the `entry(key).or_insert(..)` mutation). -/
def setKey : List (String × List Nat) → String → List Nat → List (String × List Nat)
  | [], k, v => [(k, v)]
  | (k', v') :: rest, k, v =>
    if k' = k then (k, v) :: rest else (k', v') :: setKey rest k v

/-- The body of `BitmapIndex::insert` on one entry: when `id / 32` is out of
range, `entry.resize(id / 32 + 1, 0)` appends zero words; then
`entry[id / 32] |= 1 << (id % 32)`. -/
def updEntry (e : List Nat) (id : Nat) : List Nat :=
  let e' := if e.length ≤ id / 32 then e ++ List.replicate (id / 32 + 1 - e.length) 0 else e
  e'.set (id / 32) (e'.getD (id / 32) 0 ||| (1 <<< (id % 32)))

/-- Source `BitmapIndex::insert(key, id)`. -/
def insert (s : BitmapIndex) (key : String) (id : Nat) : BitmapIndex :=
  ⟨setKey s.index key (updEntry ((lookup s.index key).getD []) id)⟩

/-- Source `BitmapIndex::get(key, id)`: `false` on an absent key or an
out-of-range word index, otherwise a mask test on the word. -/
def get (s : BitmapIndex) (key : String) (id : Nat) : Bool :=
  match lookup s.index key with
  | some entry =>
    if id / 32 < entry.length then entry.getD (id / 32) 0 &&& (1 <<< (id % 32)) != 0
    else false
  | none => false

/-- The inner loop of `BitmapIndex::list` on word `w` at word position `i`:
ids `i * 32 + j` for every set bit `j`, least significant bit first. -/
def listWord (i w : Nat) : List Nat :=
  ((List.range 32).filter (fun j => w &&& (1 <<< j) != 0)).map (fun j => i * 32 + j)

/-- The word loop of `BitmapIndex::list`, scanning words from position `i`. -/
def listWords : Nat → List Nat → List Nat
  | _, [] => []
  | i, w :: ws => listWord i w ++ listWords (i + 1) ws

/-- Source `BitmapIndex::list(key)`: empty on an absent key. -/
def list (s : BitmapIndex) (key : String) : List Nat :=
  match lookup s.index key with
  | some entry => listWords 0 entry
  | none => []

/-- Source `BitmapIndex::list_keys(key)`: the raw word vector (empty if absent). -/
def list_keys (s : BitmapIndex) (key : String) : List Nat :=
  (lookup s.index key).getD []

/-- Source `BitmapIndex::batch_insert(key, ids)`: one `insert` per id, in order. -/
def batch_insert (s : BitmapIndex) (key : String) (ids : List Nat) : BitmapIndex :=
  ids.foldl (fun acc id => acc.insert key id) s

/-- Binary digits with explicit fuel (structural recursion); `fuel ≥ n`
always suffices since the argument halves. -/
def binDigitsFuel : Nat → Nat → List Char
  | 0, _ => []
  | fuel + 1, n =>
    if n = 0 then []
    else binDigitsFuel fuel (n / 2) ++ [if n % 2 == 1 then '1' else '0']

/-- Binary digits of `n`, most significant first (empty for `0`). -/
def binDigits (n : Nat) : List Char := binDigitsFuel n n

/-- Rust `format!("\x7b:032b\x7d", w)`: binary rendering of `w`, zero-padded on
the left to 32 characters. -/
def format032b (w : Nat) : String :=
  ⟨List.replicate (32 - (binDigits w).length) '0' ++ binDigits w⟩

/-- Source `BitmapIndex::get_as_binary(key)`; `none` models the `unwrap` panic on
an absent key. -/
def get_as_binary (s : BitmapIndex) (key : String) : Option (List String) :=
  (lookup s.index key).map (fun entry => entry.map format032b)

/-- The inner `j` loop of `BitmapIndex::and_operation` for word `w1` at
position `i`.  The Rust `&&` short-circuits, so `entry2[i]` is read — and
can go out of bounds, modelled as `none` — only when bit `j` of `w1` is
set. -/
def andBits (e2 : List Nat) (i w1 : Nat) : List Nat → Option (List Nat)
  | [] => some []
  | j :: js =>
    if w1 &&& (1 <<< j) != 0 then
      match e2[i]? with
      | none => none
      | some w2 =>
        (andBits e2 i w1 js).map
          (fun r => if w2 &&& (1 <<< j) != 0 then (i * 32 + j) :: r else r)
    else andBits e2 i w1 js

/-- The word loop of `BitmapIndex::and_operation` over `entry1`, from word
position `i`. -/
def andWords (e2 : List Nat) : Nat → List Nat → Option (List Nat)
  | _, [] => some []
  | i, w :: ws => do
    let a ← andBits e2 i w (List.range 32)
    let b ← andWords e2 (i + 1) ws
    pure (a ++ b)

/-- Source `BitmapIndex::and_operation(key1, key2)`; `none` models a panic: an
`unwrap` on an absent key, or an out-of-bounds read of `entry2`. -/
def and_operation (s : BitmapIndex) (key1 key2 : String) : Option (List Nat) :=
  match lookup s.index key1, lookup s.index key2 with
  | some e1, some e2 => andWords e2 0 e1
  | _, _ => none

/-- The bit loop of `BitmapIndex::or_operation` for words `w1, w2` at word
position `i`. -/
def orWord (i w1 w2 : Nat) : List Nat :=
  ((List.range 32).filter
    (fun j => w1 &&& (1 <<< j) != 0 || w2 &&& (1 <<< j) != 0)).map (fun j => i * 32 + j)

/-- Source `BitmapIndex::or_operation(key1, key2)`: empty when either key is
absent; words past a vector's end read as `0` (`get(i).unwrap_or(&0)`). -/
def or_operation (s : BitmapIndex) (key1 key2 : String) : List Nat :=
  match lookup s.index key1, lookup s.index key2 with
  | some e1, some e2 =>
    (List.range (max e1.length e2.length)).flatMap
      (fun i => orWord i (e1.getD i 0) (e2.getD i 0))
  | _, _ => []

/-- The word vector currently stored for a key (empty when absent). -/
def entryOf (s : BitmapIndex) (key : String) : List Nat :=
  (lookup s.index key).getD []

/-- The result list of the `and` loops as a pure function, defined for the
in-bounds case (`entry2` at least as long as the scanned words). -/
def andList (e2 : List Nat) : Nat → List Nat → List Nat
  | _, [] => []
  | i, w :: ws =>
    ((List.range 32).filter (fun j => w.testBit j && (e2.getD i 0).testBit j)).map
      (fun j => i * 32 + j) ++ andList e2 (i + 1) ws

end BitmapIndex

/-- A trace of `insert` calls — the only mutating operation; `batch_insert`
is a fold of `insert`. -/
abbrev Trace := List (String × Nat)

/-- Ids in the source are `u32`. -/
def ValidTrace (tr : Trace) : Prop := ∀ p ∈ tr, p.2 < 2 ^ 32

/-- Run a trace of inserts from the empty index. -/
def runTrace (tr : Trace) : BitmapIndex :=
  tr.foldl (fun s p => s.insert p.1 p.2) BitmapIndex.new

/-- The ids inserted for `k` along a trace. -/
def idsFor (tr : Trace) (k : String) : List Nat :=
  (tr.filter (fun p => p.1 == k)).map (fun p => p.2)

/-- The largest id inserted for a key (`0` when none). -/
def maxIdOf (tr : Trace) (k : String) : Nat := (idsFor tr k).foldr max 0

/-- The number of words needed for a list of ids (`0` when none). -/
def supLen (ids : List Nat) : Nat := ids.foldr (fun n acc => max (n / 32 + 1) acc) 0

/-- The state invariant of one key of a reachable index: the key is bound
iff some insert targeted it, and then bit `j` of word `i` records exactly
the insertion of id `i * 32 + j`, the vector length is `maxId / 32 + 1`,
and every word is a `u32` value. -/
def KeyInv (tr : Trace) (k : String) : Prop :=
  match BitmapIndex.lookup (runTrace tr).index k with
  | none => idsFor tr k = []
  | some e =>
      idsFor tr k ≠ [] ∧
      (∀ i j, (e.getD i 0).testBit j ↔ (j < 32 ∧ (k, i * 32 + j) ∈ tr)) ∧
      e.length = maxIdOf tr k / 32 + 1 ∧
      (∀ i, e.getD i 0 < 2 ^ 32)

/-- The demo state of the spec examples: `pending = \x7b1,3,5,7,9\x7d` and
`admin = \x7b7,256,512,1024\x7d`. -/
def demoState : BitmapIndex :=
  (BitmapIndex.new.batch_insert "pending" [1, 3, 5, 7, 9]).batch_insert
    "admin" [7, 256, 512, 1024]

namespace BitmapIndex

/-! ### Basic lemmas: masks, map operations, entry update -/

lemma mask_test (w j : Nat) : (w &&& (1 <<< j) != 0) = w.testBit j := by
  rw [Nat.shiftLeft_eq, one_mul, Nat.and_two_pow]
  cases h : w.testBit j
  · simp
  · simp [Nat.pos_iff_ne_zero.mp (Nat.two_pow_pos j)]

lemma lookup_setKey_self (m : List (String × List Nat)) (k : String) (v : List Nat) :
    lookup (setKey m k v) k = some v := by
  induction m with
  | nil => simp [setKey, lookup]
  | cons p rest ih =>
    obtain ⟨k', v'⟩ := p
    by_cases h : k' = k <;> simp [setKey, lookup, h, ih]

lemma lookup_setKey_ne (m : List (String × List Nat)) (k k' : String) (v : List Nat)
    (h : k' ≠ k) : lookup (setKey m k v) k' = lookup m k' := by
  have hne : k ≠ k' := fun hh => h hh.symm
  induction m with
  | nil => simp [setKey, lookup, hne]
  | cons p rest ih =>
    obtain ⟨k'', v''⟩ := p
    by_cases h2 : k'' = k
    · subst h2
      simp [setKey, lookup, hne]
    · simp [setKey, lookup, h2, ih]

lemma setKey_setKey (m : List (String × List Nat)) (k : String) (v v' : List Nat) :
    setKey (setKey m k v) k v' = setKey m k v' := by
  induction m with
  | nil => simp [setKey]
  | cons p rest ih =>
    obtain ⟨k'', v''⟩ := p
    by_cases h : k'' = k <;> simp [setKey, h, ih]

lemma length_updEntry (e : List Nat) (id : Nat) :
    (updEntry e id).length = max e.length (id / 32 + 1) := by
  unfold updEntry
  by_cases h : e.length ≤ id / 32 <;> simp [h] <;> omega

lemma getD_append_replicate_zero (e : List Nat) (m i : Nat) :
    (e ++ List.replicate m 0).getD i 0 = e.getD i 0 := by
  simp only [List.getD_eq_getElem?_getD, List.getElem?_append]
  by_cases hi : i < e.length
  · simp [hi]
  · rw [if_neg hi, List.getElem?_replicate, List.getElem?_eq_none (Nat.le_of_not_lt hi)]
    by_cases hm : i - e.length < m <;> simp [hm]

lemma getD_eq_zero_of_le (e : List Nat) (i : Nat) (h : e.length ≤ i) : e.getD i 0 = 0 := by
  rw [List.getD_eq_getElem?_getD, List.getElem?_eq_none h]
  rfl

lemma getD_updEntry (e : List Nat) (id i : Nat) :
    (updEntry e id).getD i 0 =
      if i = id / 32 then e.getD i 0 ||| 1 <<< (id % 32) else e.getD i 0 := by
  unfold updEntry
  by_cases h : e.length ≤ id / 32
  · simp only [h, if_true]
    set e' := e ++ List.replicate (id / 32 + 1 - e.length) 0 with he'
    have hlen : e'.length = id / 32 + 1 := by simp [he']; omega
    have hget : ∀ i', e'.getD i' 0 = e.getD i' 0 := fun i' =>
      getD_append_replicate_zero e _ i'
    by_cases hi : i = id / 32
    · subst hi
      rw [List.getD_eq_getElem?_getD, List.getElem?_set_self (by omega), hget]
      simp
    · rw [List.getD_eq_getElem?_getD, List.getElem?_set_ne (by omega),
        ← List.getD_eq_getElem?_getD, hget, if_neg hi]
  · simp only [h, if_false]
    by_cases hi : i = id / 32
    · subst hi
      rw [List.getD_eq_getElem?_getD, List.getElem?_set_self (by omega)]
      simp
    · rw [List.getD_eq_getElem?_getD, List.getElem?_set_ne (by omega),
        ← List.getD_eq_getElem?_getD, if_neg hi]

lemma insert_def (s : BitmapIndex) (k : String) (id : Nat) :
    s.insert k id = ⟨setKey s.index k (updEntry (s.entryOf k) id)⟩ := rfl

lemma lookup_insert_self (s : BitmapIndex) (k : String) (id : Nat) :
    lookup (s.insert k id).index k = some (updEntry (s.entryOf k) id) :=
  lookup_setKey_self _ _ _

lemma lookup_insert_ne (s : BitmapIndex) (k k' : String) (id : Nat) (h : k' ≠ k) :
    lookup (s.insert k id).index k' = lookup s.index k' :=
  lookup_setKey_ne _ _ _ _ h

/-! ### Blocks of ids produced for one word position -/

lemma mem_block {p : Nat → Bool} {i n : Nat} :
    n ∈ ((List.range 32).filter p).map (fun j => i * 32 + j) ↔
      ∃ j, j < 32 ∧ p j = true ∧ n = i * 32 + j := by
  simp only [List.mem_map, List.mem_filter, List.mem_range]
  constructor
  · rintro ⟨j, ⟨hj, hp⟩, rfl⟩
    exact ⟨j, hj, hp, rfl⟩
  · rintro ⟨j, hj, hp, rfl⟩
    exact ⟨j, ⟨hj, hp⟩, rfl⟩

lemma sorted_block {p : Nat → Bool} {i : Nat} :
    List.Pairwise (· < ·) (((List.range 32).filter p).map (fun j => i * 32 + j)) := by
  rw [List.pairwise_map]
  exact ((List.pairwise_lt_range 32).filter p).imp (fun h => by omega)

lemma block_bounds {p : Nat → Bool} {i n : Nat}
    (h : n ∈ ((List.range 32).filter p).map (fun j => i * 32 + j)) :
    i * 32 ≤ n ∧ n < i * 32 + 32 := by
  obtain ⟨j, hj, -, rfl⟩ := mem_block.mp h
  omega

/-! ### The list enumeration -/

lemma listWord_eq_block (i w : Nat) :
    listWord i w = ((List.range 32).filter (fun j => w.testBit j)).map (fun j => i * 32 + j) := by
  unfold listWord
  congr 1
  apply List.filter_congr
  intro j _
  exact mask_test w j

lemma mem_listWords : ∀ (e : List Nat) (i0 n : Nat),
    n ∈ listWords i0 e ↔
      ∃ d j, d < e.length ∧ j < 32 ∧ (e.getD d 0).testBit j ∧ n = (i0 + d) * 32 + j := by
  intro e
  induction e with
  | nil => simp [listWords]
  | cons w ws ih =>
    intro i0 n
    simp only [listWords, List.mem_append, listWord_eq_block, mem_block, ih]
    constructor
    · rintro (⟨j, hj, hb, rfl⟩ | ⟨d, j, hd, hj, hb, rfl⟩)
      · exact ⟨0, j, by simp, hj, by simpa using hb, by simp⟩
      · exact ⟨d + 1, j, by simpa using hd, hj, by simpa using hb, by ring_nf⟩
    · rintro ⟨d, j, hd, hj, hb, rfl⟩
      cases d with
      | zero => exact Or.inl ⟨j, hj, by simpa using hb, by simp⟩
      | succ d' =>
        refine Or.inr ⟨d', j, by simpa using hd, hj, by simpa using hb, by ring_nf⟩

lemma listWords_lower_bound : ∀ (e : List Nat) (i0 : Nat) (n : Nat),
    n ∈ listWords i0 e → i0 * 32 ≤ n := by
  intro e
  induction e with
  | nil => simp [listWords]
  | cons w ws ih =>
    intro i0 n hn
    rcases List.mem_append.mp hn with h | h
    · exact (block_bounds (listWord_eq_block i0 w ▸ h)).1
    · have := ih (i0 + 1) n h
      omega

lemma sorted_listWords : ∀ (e : List Nat) (i0 : Nat),
    List.Pairwise (· < ·) (listWords i0 e) := by
  intro e
  induction e with
  | nil => intro i0; simp [listWords]
  | cons w ws ih =>
    intro i0
    rw [listWords, List.pairwise_append]
    refine ⟨listWord_eq_block i0 w ▸ sorted_block, ih (i0 + 1), ?_⟩
    intro a ha b hb
    have h1 := (block_bounds (listWord_eq_block i0 w ▸ ha)).2
    have h2 := listWords_lower_bound ws (i0 + 1) b hb
    omega

lemma testBit_mask (m j : Nat) : (1 <<< m).testBit j = decide (j = m) := by
  rw [Nat.shiftLeft_eq, one_mul]
  by_cases h : m = j
  · subst h; simp [Nat.testBit_two_pow_self]
  · simp [Nat.testBit_two_pow_of_ne h, Ne.symm h]

lemma mask_lt (m : Nat) : 1 <<< (m % 32) < 2 ^ 32 := by
  rw [Nat.shiftLeft_eq, one_mul]
  exact Nat.pow_lt_pow_right (by norm_num) (by omega)

end BitmapIndex

/-! ### Trace bookkeeping -/

lemma foldr_max_le_iff (l : List Nat) (m : Nat) :
    l.foldr max 0 ≤ m ↔ ∀ x ∈ l, x ≤ m := by
  induction l with
  | nil => simp
  | cons a l ih => simp [ih, Nat.max_le]

lemma le_foldr_max (l : List Nat) (x : Nat) (h : x ∈ l) : x ≤ l.foldr max 0 :=
  (foldr_max_le_iff l _).mp (Nat.le_refl _) x h

lemma foldr_max_base (l : List Nat) (b : Nat) : l.foldr max b = max b (l.foldr max 0) := by
  induction l with
  | nil => simp
  | cons a l ih => simp [ih]; omega

lemma max_div_32 (a b : Nat) : max a b / 32 = max (a / 32) (b / 32) := by
  rcases Nat.le_total a b with h | h
  · rw [Nat.max_eq_right h, Nat.max_eq_right (Nat.div_le_div_right h)]
  · rw [Nat.max_eq_left h, Nat.max_eq_left (Nat.div_le_div_right h)]

lemma runTrace_snoc (tr : Trace) (p : String × Nat) :
    runTrace (tr ++ [p]) = (runTrace tr).insert p.1 p.2 := by
  simp [runTrace, List.foldl_append]

lemma idsFor_append (tr tr' : Trace) (k : String) :
    idsFor (tr ++ tr') k = idsFor tr k ++ idsFor tr' k := by
  simp [idsFor]

lemma idsFor_single_self (k : String) (n : Nat) : idsFor [(k, n)] k = [n] := by
  simp [idsFor]

lemma idsFor_single_ne (k k' : String) (n : Nat) (h : k' ≠ k) : idsFor [(k', n)] k = [] := by
  simp [idsFor, h]

lemma mem_idsFor (tr : Trace) (k : String) (n : Nat) : n ∈ idsFor tr k ↔ (k, n) ∈ tr := by
  simp only [idsFor, List.mem_map, List.mem_filter]
  constructor
  · rintro ⟨⟨k', n'⟩, ⟨hmem, hk⟩, rfl⟩
    simpa using (beq_iff_eq.mp hk) ▸ hmem
  · intro h
    exact ⟨(k, n), ⟨h, by simp⟩, rfl⟩

lemma maxIdOf_snoc_self (tr : Trace) (k : String) (n : Nat) :
    maxIdOf (tr ++ [(k, n)]) k = max (maxIdOf tr k) n := by
  rw [maxIdOf, idsFor_append, idsFor_single_self, List.foldr_append]
  have h0 : List.foldr max 0 [n] = n := by simp
  rw [h0, foldr_max_base, maxIdOf, Nat.max_comm]

/-! ### The reachable-state invariant -/

theorem keyInv (tr : Trace) (k : String) : KeyInv tr k := by
  induction tr using List.reverseRecOn with
  | nil =>
    show KeyInv [] k
    simp [KeyInv, runTrace, BitmapIndex.new, BitmapIndex.lookup, idsFor]
  | append_singleton tr p ih =>
    obtain ⟨k', n⟩ := p
    by_cases hk : k = k'
    · -- the inserted key is the inspected one
      subst hk
      rw [KeyInv, runTrace_snoc]
      rw [BitmapIndex.lookup_insert_self]
      cases hs : BitmapIndex.lookup (runTrace tr).index k with
      | none =>
        rw [KeyInv, hs] at ih
        have hnotin : ∀ m, (k, m) ∉ tr := by
          intro m hm
          have := (mem_idsFor tr k m).mpr hm
          rw [ih] at this
          simp at this
        have hent : (runTrace tr).entryOf k = [] := by
          simp [BitmapIndex.entryOf, hs]
        rw [hent]
        refine ⟨?_, ?_, ?_, ?_⟩
        · rw [idsFor_append, ih, idsFor_single_self]
          simp
        · intro i j
          rw [BitmapIndex.getD_updEntry]
          by_cases hi : i = n / 32
          · subst hi
            simp only [if_true]
            rw [show ([] : List Nat).getD (n / 32) 0 = 0 from rfl]
            rw [Nat.testBit_lor, BitmapIndex.testBit_mask, Nat.zero_testBit]
            simp only [Bool.false_or, decide_eq_true_eq, List.mem_append,
              List.mem_singleton]
            constructor
            · rintro rfl
              refine ⟨by omega, Or.inr ?_⟩
              rw [Prod.mk.injEq]
              exact ⟨rfl, by omega⟩
            · rintro ⟨hj, h | h⟩
              · exact absurd h (hnotin _)
              · rw [Prod.mk.injEq] at h
                omega
          · rw [if_neg hi]
            rw [show ([] : List Nat).getD i 0 = 0 from rfl, Nat.zero_testBit]
            simp only [Bool.false_eq_true, false_iff, not_and, List.mem_append,
              List.mem_singleton]
            intro hj h
            rcases h with h | h
            · exact hnotin _ h
            · rw [Prod.mk.injEq] at h
              omega
        · rw [BitmapIndex.length_updEntry, maxIdOf_snoc_self]
          have : maxIdOf tr k = 0 := by rw [maxIdOf, ih]; rfl
          simp [this]
        · intro i
          rw [BitmapIndex.getD_updEntry]
          by_cases hi : i = n / 32
          · subst hi
            simp only [if_true]
            rw [show ([] : List Nat).getD (n / 32) 0 = 0 from rfl]
            have := BitmapIndex.mask_lt n
            simp only [Nat.zero_or]
            omega
          · rw [if_neg hi]
            rw [show ([] : List Nat).getD i 0 = 0 from rfl]
            positivity
      | some e =>
        rw [KeyInv, hs] at ih
        obtain ⟨hne, hbits, hlen, hwords⟩ := ih
        have hent : (runTrace tr).entryOf k = e := by
          simp [BitmapIndex.entryOf, hs]
        rw [hent]
        refine ⟨?_, ?_, ?_, ?_⟩
        · rw [idsFor_append, idsFor_single_self]
          simp
        · intro i j
          rw [BitmapIndex.getD_updEntry]
          by_cases hi : i = n / 32
          · subst hi
            simp only [if_true]
            rw [Nat.testBit_lor, BitmapIndex.testBit_mask]
            simp only [Bool.or_eq_true, decide_eq_true_eq, List.mem_append,
              List.mem_singleton, hbits]
            constructor
            · rintro (⟨hj, hmem⟩ | rfl)
              · exact ⟨hj, Or.inl hmem⟩
              · refine ⟨by omega, Or.inr ?_⟩
                rw [Prod.mk.injEq]
                exact ⟨rfl, by omega⟩
            · rintro ⟨hj, hmem | heq⟩
              · exact Or.inl ⟨hj, hmem⟩
              · rw [Prod.mk.injEq] at heq
                right
                omega
          · rw [if_neg hi]
            simp only [hbits, List.mem_append, List.mem_singleton]
            constructor
            · rintro ⟨hj, hmem⟩
              exact ⟨hj, Or.inl hmem⟩
            · rintro ⟨hj, hmem | heq⟩
              · exact ⟨hj, hmem⟩
              · rw [Prod.mk.injEq] at heq
                omega
        · rw [BitmapIndex.length_updEntry, maxIdOf_snoc_self, hlen, max_div_32]
          omega
        · intro i
          rw [BitmapIndex.getD_updEntry]
          by_cases hi : i = n / 32
          · subst hi
            simp only [if_true]
            exact Nat.or_lt_two_pow (hwords _) (BitmapIndex.mask_lt n)
          · rw [if_neg hi]
            exact hwords i
    · -- a different key was inserted: nothing changes for k
      rw [KeyInv, runTrace_snoc, BitmapIndex.lookup_insert_ne _ _ _ _ hk]
      have hids : idsFor (tr ++ [(k', n)]) k = idsFor tr k := by
        rw [idsFor_append, idsFor_single_ne _ _ _ (Ne.symm hk)]
        simp
      have hmem : ∀ m, ((k, m) ∈ tr ++ [(k', n)]) ↔ (k, m) ∈ tr := by
        intro m
        simp only [List.mem_append, List.mem_singleton, Prod.mk.injEq]
        constructor
        · rintro (h | ⟨h1, h2⟩)
          · exact h
          · exact absurd h1 hk
        · exact Or.inl
      rw [KeyInv] at ih
      cases hs : BitmapIndex.lookup (runTrace tr).index k with
      | none =>
        rw [hs] at ih
        rw [hids]
        exact ih
      | some e =>
        rw [hs] at ih
        obtain ⟨h1, h2, h3, h4⟩ := ih
        refine ⟨by rw [hids]; exact h1, ?_, ?_, h4⟩
        · intro i j
          rw [hmem]
          exact h2 i j
        · rw [maxIdOf, hids, h3, maxIdOf]

lemma keyInv_some (tr : Trace) (k : String) (e : List Nat)
    (h : BitmapIndex.lookup (runTrace tr).index k = some e) :
    idsFor tr k ≠ [] ∧
    (∀ i j, (e.getD i 0).testBit j ↔ (j < 32 ∧ (k, i * 32 + j) ∈ tr)) ∧
    e.length = maxIdOf tr k / 32 + 1 ∧ (∀ i, e.getD i 0 < 2 ^ 32) := by
  have hinv := keyInv tr k
  rw [KeyInv, h] at hinv
  exact hinv

lemma keyInv_none (tr : Trace) (k : String)
    (h : BitmapIndex.lookup (runTrace tr).index k = none) : ∀ n, (k, n) ∉ tr := by
  have hinv := keyInv tr k
  rw [KeyInv, h] at hinv
  intro n hn
  have := (mem_idsFor tr k n).mpr hn
  rw [hinv] at this
  simp at this

/-! ### Claim theorems -/

/-- C1: for every key `k` and every 32-bit id `n`, after `insert(k, n)` the
call `get(k, n)` returns `true`. -/
theorem insert_then_get (s : BitmapIndex) (k : String) (n : Nat) (_hn : n < 2 ^ 32) :
    (s.insert k n).get k n = true := by
  have hl := BitmapIndex.lookup_insert_self s k n
  have hlen : n / 32 < (BitmapIndex.updEntry (s.entryOf k) n).length := by
    rw [BitmapIndex.length_updEntry]; omega
  simp only [BitmapIndex.get, hl, if_pos hlen]
  rw [BitmapIndex.mask_test, BitmapIndex.getD_updEntry, if_pos rfl, Nat.testBit_lor,
    BitmapIndex.testBit_mask]
  simp

/-- Witness for C1 at a concrete input. -/
theorem insert_then_get_witness :
    5 < 2 ^ 32 ∧ (BitmapIndex.new.insert "flag" 5).get "flag" 5 = true :=
  ⟨by norm_num, insert_then_get BitmapIndex.new "flag" 5 (by norm_num)⟩

/-- C2: on every reachable state, `list(k)` is strictly ascending (hence
duplicate-free) and contains exactly the ids ever inserted for `k`; it is
empty when `k` was never inserted into. -/
theorem list_exactly_inserted (tr : Trace) (k : String) :
    List.Pairwise (· < ·) ((runTrace tr).list k) ∧
    (∀ n, n ∈ (runTrace tr).list k ↔ (k, n) ∈ tr) ∧
    ((∀ n, (k, n) ∉ tr) → (runTrace tr).list k = []) := by
  cases hs : BitmapIndex.lookup (runTrace tr).index k with
  | none =>
    have hlist : (runTrace tr).list k = [] := by simp [BitmapIndex.list, hs]
    refine ⟨by simp [hlist], ?_, fun _ => hlist⟩
    intro n
    rw [hlist]
    simp only [List.not_mem_nil, false_iff]
    exact keyInv_none tr k hs n
  | some e =>
    obtain ⟨hne, hbits, hlen, -⟩ := keyInv_some tr k e hs
    have hlist : (runTrace tr).list k = BitmapIndex.listWords 0 e := by
      simp [BitmapIndex.list, hs]
    have hmem : ∀ n, n ∈ (runTrace tr).list k ↔ (k, n) ∈ tr := by
      intro n
      rw [hlist, BitmapIndex.mem_listWords]
      constructor
      · rintro ⟨d, j, hd, hj, hb, rfl⟩
        have := (hbits d j).mp hb
        simpa using this.2
      · intro hmem
        refine ⟨n / 32, n % 32, ?_, by omega, ?_, by omega⟩
        · have hle : n ≤ maxIdOf tr k := le_foldr_max _ _ ((mem_idsFor tr k n).mpr hmem)
          have := Nat.div_le_div_right (c := 32) hle
          omega
        · rw [hbits]
          refine ⟨by omega, ?_⟩
          have : n / 32 * 32 + n % 32 = n := by omega
          rw [this]
          exact hmem
    refine ⟨hlist ▸ BitmapIndex.sorted_listWords e 0, hmem, ?_⟩
    intro hnone
    obtain ⟨m, hm⟩ := List.exists_mem_of_ne_nil _ hne
    exact absurd ((mem_idsFor tr k m).mp hm) (hnone m)

/-- Witness for C2 at a concrete trace. -/
theorem list_exactly_inserted_witness :
    List.Pairwise (· < ·) ((runTrace [("a", 33), ("a", 2)]).list "a") ∧
    (33 ∈ (runTrace [("a", 33), ("a", 2)]).list "a" ↔
      (("a", 33) : String × Nat) ∈ [("a", 33), ("a", 2)]) ∧
    ((runTrace [("a", 33), ("a", 2)]).list "b" = []) :=
  ⟨(list_exactly_inserted [("a", 33), ("a", 2)] "a").1,
   (list_exactly_inserted [("a", 33), ("a", 2)] "a").2.1 33,
   (list_exactly_inserted [("a", 33), ("a", 2)] "b").2.2 (by intro n; simp)⟩

/-- C5: a never-inserted key makes `getAsBinary` and `and` (either
argument) fail, while `or` returns the empty sequence, `list` returns the
empty sequence, and `get` returns `false`. -/
theorem absent_key_behaviour (s : BitmapIndex) (k k' : String) (n : Nat)
    (h : BitmapIndex.lookup s.index k = none) :
    s.get_as_binary k = none ∧
    s.and_operation k k' = none ∧
    s.and_operation k' k = none ∧
    s.or_operation k k' = [] ∧
    s.or_operation k' k = [] ∧
    s.list k = [] ∧
    s.get k n = false := by
  refine ⟨?_, ?_, ?_, ?_, ?_, ?_, ?_⟩
  · simp [BitmapIndex.get_as_binary, h]
  · cases h2 : BitmapIndex.lookup s.index k' <;>
      simp [BitmapIndex.and_operation, h, h2]
  · cases h2 : BitmapIndex.lookup s.index k' <;>
      simp [BitmapIndex.and_operation, h, h2]
  · cases h2 : BitmapIndex.lookup s.index k' <;>
      simp [BitmapIndex.or_operation, h, h2]
  · cases h2 : BitmapIndex.lookup s.index k' <;>
      simp [BitmapIndex.or_operation, h, h2]
  · simp [BitmapIndex.list, h]
  · simp [BitmapIndex.get, h]

/-- Witness for C5: key `b` was never inserted into. -/
theorem absent_key_behaviour_witness :
    BitmapIndex.lookup (BitmapIndex.new.insert "a" 7).index "b" = none ∧
    ((BitmapIndex.new.insert "a" 7).get_as_binary "b" = none ∧
     (BitmapIndex.new.insert "a" 7).and_operation "b" "a" = none ∧
     (BitmapIndex.new.insert "a" 7).and_operation "a" "b" = none ∧
     (BitmapIndex.new.insert "a" 7).or_operation "b" "a" = [] ∧
     (BitmapIndex.new.insert "a" 7).or_operation "a" "b" = [] ∧
     (BitmapIndex.new.insert "a" 7).list "b" = [] ∧
     (BitmapIndex.new.insert "a" 7).get "b" 7 = false) :=
  ⟨by decide, absent_key_behaviour (BitmapIndex.new.insert "a" 7) "b" "a" 7 (by decide)⟩

/-- C10 (implicit): `or` is commutative in its two key arguments, both in
the absent-key cases and in the present-present case. -/
theorem or_operation_comm (s : BitmapIndex) (k1 k2 : String) :
    s.or_operation k1 k2 = s.or_operation k2 k1 := by
  unfold BitmapIndex.or_operation
  cases h1 : BitmapIndex.lookup s.index k1 with
  | none => cases h2 : BitmapIndex.lookup s.index k2 <;> rfl
  | some e1 =>
    cases h2 : BitmapIndex.lookup s.index k2 with
    | none => rfl
    | some e2 =>
      have hw : (fun i => BitmapIndex.orWord i (e1.getD i 0) (e2.getD i 0)) =
          (fun i => BitmapIndex.orWord i (e2.getD i 0) (e1.getD i 0)) := by
        funext i
        unfold BitmapIndex.orWord
        congr 1
        apply List.filter_congr
        intro j _
        exact Bool.or_comm _ _
      dsimp only
      rw [Nat.max_comm, hw]

lemma sorted_range_flatMap {len : Nat} {g : Nat → List Nat}
    (hs : ∀ i, List.Pairwise (· < ·) (g i))
    (hb : ∀ i n, n ∈ g i → i * 32 ≤ n ∧ n < i * 32 + 32) :
    List.Pairwise (· < ·) ((List.range len).flatMap g) := by
  rw [List.pairwise_flatMap]
  refine ⟨fun i _ => hs i, ?_⟩
  refine (List.pairwise_lt_range len).imp ?_
  intro a b hab x hx y hy
  have h1 := (hb a x hx).2
  have h2 := (hb b y hy).1
  have : a * 32 + 32 ≤ b * 32 := by omega
  omega

lemma mem_orWord {i w1 w2 n : Nat} :
    n ∈ BitmapIndex.orWord i w1 w2 ↔
      ∃ j, j < 32 ∧ (w1.testBit j ∨ w2.testBit j) ∧ n = i * 32 + j := by
  unfold BitmapIndex.orWord
  rw [BitmapIndex.mem_block]
  simp only [Bool.or_eq_true, BitmapIndex.mask_test]

/-- C4: with both keys present, `or` scans word positions up to the longer
length, reads missing words as zero, and returns — strictly ascending, with
no duplicates — exactly the ids whose bit is set in either bitset; on the
demo sets `or("admin","pending")` is `[1,3,5,7,9,256,512,1024]`. -/
theorem or_spec (s : BitmapIndex) (k1 k2 : String) (e1 e2 : List Nat)
    (h1 : BitmapIndex.lookup s.index k1 = some e1)
    (h2 : BitmapIndex.lookup s.index k2 = some e2) :
    List.Pairwise (· < ·) (s.or_operation k1 k2) ∧
    (s.or_operation k1 k2).Nodup ∧
    (∀ n, n ∈ s.or_operation k1 k2 ↔
      ∃ i j, i < max e1.length e2.length ∧ j < 32 ∧
        ((e1.getD i 0).testBit j ∨ (e2.getD i 0).testBit j) ∧ n = i * 32 + j) ∧
    demoState.or_operation "admin" "pending" = [1, 3, 5, 7, 9, 256, 512, 1024] := by
  have heq : s.or_operation k1 k2 =
      (List.range (max e1.length e2.length)).flatMap
        (fun i => BitmapIndex.orWord i (e1.getD i 0) (e2.getD i 0)) := by
    simp [BitmapIndex.or_operation, h1, h2]
  have hsorted : List.Pairwise (· < ·) (s.or_operation k1 k2) := by
    rw [heq]
    refine sorted_range_flatMap (fun i => ?_) (fun i n hn => ?_)
    · exact BitmapIndex.sorted_block
    · exact BitmapIndex.block_bounds hn
  refine ⟨hsorted, hsorted.imp (fun h => Nat.ne_of_lt h), ?_, by decide⟩
  intro n
  rw [heq, List.mem_flatMap]
  constructor
  · rintro ⟨i, hi, hn⟩
    obtain ⟨j, hj, hb, rfl⟩ := mem_orWord.mp hn
    exact ⟨i, j, List.mem_range.mp hi, hj, hb, rfl⟩
  · rintro ⟨i, j, hi, hj, hb, rfl⟩
    exact ⟨i, List.mem_range.mpr hi, mem_orWord.mpr ⟨j, hj, hb, rfl⟩⟩

/-- Witness for C4 on the demo state. -/
theorem or_spec_witness :
    BitmapIndex.lookup demoState.index "admin" = some ((demoState.entryOf "admin")) ∧
    BitmapIndex.lookup demoState.index "pending" = some ((demoState.entryOf "pending")) ∧
    demoState.or_operation "admin" "pending" = [1, 3, 5, 7, 9, 256, 512, 1024] :=
  ⟨by decide, by decide,
   (or_spec demoState "admin" "pending" (demoState.entryOf "admin")
     (demoState.entryOf "pending") (by decide) (by decide)).2.2.2⟩

namespace BitmapIndex

/-! ### The and loops in the in-bounds case -/

lemma andBits_in_bounds (e2 : List Nat) (i w1 : Nat) (hi : i < e2.length) :
    ∀ js, andBits e2 i w1 js =
      some ((js.filter (fun j => w1.testBit j && (e2.getD i 0).testBit j)).map
        (fun j => i * 32 + j)) := by
  have hsome : e2[i]? = some (e2.getD i 0) := by
    rw [List.getElem?_eq_getElem hi, List.getD_eq_getElem e2 0 hi]
  intro js
  induction js with
  | nil => rfl
  | cons j js ih =>
    show andBits e2 i w1 (j :: js) = _
    unfold andBits
    rw [mask_test]
    cases hb : w1.testBit j with
    | false => simp [hb, ih]
    | true =>
      rw [if_pos rfl, hsome]
      simp only [ih, Option.map_some, mask_test, List.filter_cons, hb, Bool.true_and]
      cases hb2 : (e2.getD i 0).testBit j <;> simp [hb2]

lemma andWords_in_bounds (e2 : List Nat) : ∀ (ws : List Nat) (i0 : Nat),
    i0 + ws.length ≤ e2.length →
    andWords e2 i0 ws = some (andList e2 i0 ws) := by
  intro ws
  induction ws with
  | nil => intro i0 _; rfl
  | cons w ws ih =>
    intro i0 hle
    have hi : i0 < e2.length := by simp at hle; omega
    have hrec : andWords e2 (i0 + 1) ws = some (andList e2 (i0 + 1) ws) := by
      apply ih
      simp at hle ⊢
      omega
    show andWords e2 i0 (w :: ws) = _
    unfold andWords
    rw [andBits_in_bounds e2 i0 w hi, hrec]
    rfl

lemma mem_andList (e2 : List Nat) : ∀ (ws : List Nat) (i0 n : Nat),
    n ∈ andList e2 i0 ws ↔
      ∃ d j, d < ws.length ∧ j < 32 ∧ (ws.getD d 0).testBit j ∧
        (e2.getD (i0 + d) 0).testBit j ∧ n = (i0 + d) * 32 + j := by
  intro ws
  induction ws with
  | nil => simp [andList]
  | cons w ws ih =>
    intro i0 n
    simp only [andList, List.mem_append, mem_block, ih, Bool.and_eq_true]
    constructor
    · rintro (⟨j, hj, ⟨hb1, hb2⟩, rfl⟩ | ⟨d, j, hd, hj, hb1, hb2, rfl⟩)
      · exact ⟨0, j, by simp, hj, by simpa using hb1, by simpa using hb2, by simp⟩
      · refine ⟨d + 1, j, by simpa using hd, hj, by simpa using hb1, ?_, ?_⟩
        · have : i0 + 1 + d = i0 + (d + 1) := by omega
          rwa [this] at hb2
        · have : i0 + 1 + d = i0 + (d + 1) := by omega
          rw [← this]
    · rintro ⟨d, j, hd, hj, hb1, hb2, rfl⟩
      cases d with
      | zero => exact Or.inl ⟨j, hj, ⟨by simpa using hb1, by simpa using hb2⟩, by simp⟩
      | succ d' =>
        refine Or.inr ⟨d', j, by simpa using hd, hj, by simpa using hb1, ?_, ?_⟩
        · have : i0 + 1 + d' = i0 + (d' + 1) := by omega
          rwa [this]
        · have : i0 + 1 + d' = i0 + (d' + 1) := by omega
          rw [this]

lemma andList_lower_bound (e2 : List Nat) : ∀ (ws : List Nat) (i0 n : Nat),
    n ∈ andList e2 i0 ws → i0 * 32 ≤ n := by
  intro ws
  induction ws with
  | nil => simp [andList]
  | cons w ws ih =>
    intro i0 n hn
    rcases List.mem_append.mp hn with h | h
    · exact (block_bounds h).1
    · have := ih (i0 + 1) n h
      omega

lemma sorted_andList (e2 : List Nat) : ∀ (ws : List Nat) (i0 : Nat),
    List.Pairwise (· < ·) (andList e2 i0 ws) := by
  intro ws
  induction ws with
  | nil => intro i0; simp [andList]
  | cons w ws ih =>
    intro i0
    rw [andList, List.pairwise_append]
    refine ⟨sorted_block, ih (i0 + 1), ?_⟩
    intro a ha b hb
    have h1 := (block_bounds ha).2
    have h2 := andList_lower_bound e2 ws (i0 + 1) b hb
    omega

end BitmapIndex

/-- C3: when both keys are present and `key2`'s vector is at least as long
as `key1`'s, `and` returns, strictly ascending, exactly the ids `i*32+j`
whose bit is set in word `i` of both bitsets for `i` below `key1`'s word
count; on the demo sets `and("pending","admin")` is `[7]`. -/
theorem and_spec (s : BitmapIndex) (k1 k2 : String) (e1 e2 : List Nat)
    (h1 : BitmapIndex.lookup s.index k1 = some e1)
    (h2 : BitmapIndex.lookup s.index k2 = some e2)
    (hlen : e1.length ≤ e2.length) :
    (∃ l, s.and_operation k1 k2 = some l ∧
      List.Pairwise (· < ·) l ∧
      (∀ n, n ∈ l ↔ ∃ i j, i < e1.length ∧ j < 32 ∧
        (e1.getD i 0).testBit j ∧ (e2.getD i 0).testBit j ∧ n = i * 32 + j)) ∧
    demoState.and_operation "pending" "admin" = some [7] := by
  refine ⟨⟨BitmapIndex.andList e2 0 e1, ?_, BitmapIndex.sorted_andList e2 e1 0, ?_⟩, by decide⟩
  · have : s.and_operation k1 k2 = BitmapIndex.andWords e2 0 e1 := by
      simp [BitmapIndex.and_operation, h1, h2]
    rw [this]
    exact BitmapIndex.andWords_in_bounds e2 e1 0 (by omega)
  · intro n
    rw [BitmapIndex.mem_andList]
    constructor
    · rintro ⟨d, j, hd, hj, hb1, hb2, rfl⟩
      exact ⟨d, j, hd, hj, by simpa using hb1, by simpa using hb2, by simp⟩
    · rintro ⟨i, j, hi, hj, hb1, hb2, rfl⟩
      exact ⟨i, j, hi, hj, by simpa using hb1, by simpa using hb2, by simp⟩

/-- Witness for C3 on the demo state. -/
theorem and_spec_witness :
    BitmapIndex.lookup demoState.index "pending" = some (demoState.entryOf "pending") ∧
    BitmapIndex.lookup demoState.index "admin" = some (demoState.entryOf "admin") ∧
    (demoState.entryOf "pending").length ≤ (demoState.entryOf "admin").length ∧
    demoState.and_operation "pending" "admin" = some [7] :=
  ⟨by decide, by decide, by decide,
   (and_spec demoState "pending" "admin" (demoState.entryOf "pending")
     (demoState.entryOf "admin") (by decide) (by decide) (by decide)).2⟩

lemma foldr_max_mem (l : List Nat) (h : l ≠ []) : l.foldr max 0 ∈ l := by
  induction l with
  | nil => exact absurd rfl h
  | cons a l ih =>
    show max a (l.foldr max 0) ∈ a :: l
    rcases max_choice a (l.foldr max 0) with hm | hm
    · rw [hm]; exact List.mem_cons_self a l
    · rw [hm]
      cases hl : l with
      | nil =>
        subst hl
        simp at hm ⊢
        omega
      | cons b l' =>
        subst hl
        exact List.mem_cons_of_mem a (ih (by simp))

namespace BitmapIndex

lemma exists_testBit_lt_32 (w : Nat) (hw : w < 2 ^ 32) (hnz : w ≠ 0) :
    ∃ j, j < 32 ∧ w.testBit j = true := by
  by_contra hcon
  push_neg at hcon
  apply hnz
  apply Nat.zero_of_testBit_eq_false
  intro i
  by_cases hi : i < 32
  · by_contra hbit
    exact absurd (by simpa using hbit) (by simpa using hcon i hi)
  · exact Nat.testBit_eq_false_of_lt
      (lt_of_lt_of_le hw (Nat.pow_le_pow_right (by norm_num) (by omega)))

lemma andBits_none (e2 : List Nat) (i w1 : Nat) (hnone : e2[i]? = none) :
    ∀ js, (∃ j ∈ js, w1.testBit j = true) → andBits e2 i w1 js = none := by
  intro js
  induction js with
  | nil => rintro ⟨j, hj, -⟩; exact absurd hj (List.not_mem_nil j)
  | cons j js ih =>
    rintro ⟨j', hj', hb⟩
    show andBits e2 i w1 (j :: js) = none
    unfold andBits
    rw [mask_test]
    cases hbj : w1.testBit j with
    | true => rw [if_pos rfl, hnone]
    | false =>
      rw [if_neg (by simp)]
      apply ih
      rcases List.mem_cons.mp hj' with rfl | hmem
      · rw [hbj] at hb; exact absurd hb (by simp)
      · exact ⟨j', hmem, hb⟩

lemma andWords_none (e2 : List Nat) : ∀ (ws : List Nat) (i0 : Nat),
    (∃ d, d < ws.length ∧ e2.length ≤ i0 + d ∧ ws.getD d 0 ≠ 0 ∧ ws.getD d 0 < 2 ^ 32) →
    andWords e2 i0 ws = none := by
  intro ws
  induction ws with
  | nil => rintro i0 ⟨d, hd, -⟩; simp at hd
  | cons w ws ih =>
    rintro i0 ⟨d, hd, hge, hnz, hlt⟩
    show andWords e2 i0 (w :: ws) = none
    unfold andWords
    cases d with
    | zero =>
      have hw : w ≠ 0 := by simpa using hnz
      have hwlt : w < 2 ^ 32 := by simpa using hlt
      obtain ⟨j, hj, hb⟩ := exists_testBit_lt_32 w hwlt hw
      rw [andBits_none e2 i0 w (List.getElem?_eq_none (by simpa using hge))
        (List.range 32) ⟨j, List.mem_range.mpr hj, hb⟩]
      rfl
    | succ d' =>
      have hrec : andWords e2 (i0 + 1) ws = none := by
        apply ih
        refine ⟨d', by simpa using hd, by omega, by simpa using hnz, by simpa using hlt⟩
      cases hab : andBits e2 i0 w (List.range 32) with
      | none => rfl
      | some a => simp [Option.bind, hrec]

end BitmapIndex

/-- C6: on every reachable state where both keys are present but `key2`'s
word vector is strictly shorter than `key1`'s, `and` does not zero-extend
`key2`: it hits an out-of-bounds word read and fails instead of returning a
result. -/
theorem and_shorter_key2_fails (tr : Trace) (k1 k2 : String) (e1 e2 : List Nat)
    (h1 : BitmapIndex.lookup (runTrace tr).index k1 = some e1)
    (h2 : BitmapIndex.lookup (runTrace tr).index k2 = some e2)
    (hlen : e2.length < e1.length) :
    (runTrace tr).and_operation k1 k2 = none := by
  obtain ⟨hne, hbits, hlenM, hwords⟩ := keyInv_some tr k1 e1 h1
  have heq : (runTrace tr).and_operation k1 k2 = BitmapIndex.andWords e2 0 e1 := by
    simp [BitmapIndex.and_operation, h1, h2]
  rw [heq]
  set M := maxIdOf tr k1 with hM
  have hmemM : (k1, M) ∈ tr := (mem_idsFor tr k1 M).mp (foldr_max_mem _ hne)
  have hbit : (e1.getD (M / 32) 0).testBit (M % 32) = true := by
    rw [hbits]
    refine ⟨by omega, ?_⟩
    have : M / 32 * 32 + M % 32 = M := by omega
    rw [this]
    exact hmemM
  apply BitmapIndex.andWords_none
  refine ⟨M / 32, by omega, by omega, ?_, hwords _⟩
  intro h0
  rw [h0] at hbit
  simp [Nat.zero_testBit] at hbit

/-- Witness for C6: after `insert("a", 32); insert("b", 0)` the entry of
`a` has two words and the entry of `b` has one, and `and("a","b")`
fails. -/
theorem and_shorter_key2_fails_witness :
    BitmapIndex.lookup (runTrace [("a", 32), ("b", 0)]).index "a" = some [0, 1] ∧
    BitmapIndex.lookup (runTrace [("a", 32), ("b", 0)]).index "b" = some [1] ∧
    ([1] : List Nat).length < ([0, 1] : List Nat).length ∧
    (runTrace [("a", 32), ("b", 0)]).and_operation "a" "b" = none :=
  ⟨by decide, by decide, by decide,
   and_shorter_key2_fails [("a", 32), ("b", 0)] "a" "b" [0, 1] [1]
     (by decide) (by decide) (by decide)⟩

namespace BitmapIndex

/-! ### Binary rendering -/

lemma binDigitsFuel_zero : ∀ f, binDigitsFuel f 0 = [] := by
  intro f
  cases f <;> simp [binDigitsFuel]

lemma binDigitsFuel_congr : ∀ (f1 f2 n : Nat), n ≤ f1 → n ≤ f2 →
    binDigitsFuel f1 n = binDigitsFuel f2 n := by
  intro f1
  induction f1 with
  | zero =>
    intro f2 n h1 _
    have : n = 0 := by omega
    subst this
    rw [binDigitsFuel_zero, binDigitsFuel_zero]
  | succ f ih =>
    intro f2 n h1 h2
    by_cases hn : n = 0
    · subst hn
      rw [binDigitsFuel_zero, binDigitsFuel_zero]
    · have hf2 : ∃ f2', f2 = f2' + 1 := ⟨f2 - 1, by omega⟩
      obtain ⟨f2', rfl⟩ := hf2
      show binDigitsFuel (f + 1) n = binDigitsFuel (f2' + 1) n
      unfold binDigitsFuel
      rw [if_neg hn, if_neg hn]
      congr 1
      exact ih f2' (n / 2) (by omega) (by omega)

lemma binDigits_rec (n : Nat) (hn : n ≠ 0) :
    binDigits n = binDigits (n / 2) ++ [if n % 2 == 1 then '1' else '0'] := by
  obtain ⟨m, rfl⟩ : ∃ m, n = m + 1 := ⟨n - 1, by omega⟩
  show binDigitsFuel (m + 1) (m + 1) = _
  unfold binDigitsFuel
  rw [if_neg hn]
  congr 1
  exact binDigitsFuel_congr m ((m + 1) / 2) ((m + 1) / 2) (by omega) (by omega)

lemma padded_binDigits : ∀ (k w : Nat), w < 2 ^ k →
    List.replicate (k - (binDigits w).length) '0' ++ binDigits w =
      (List.range k).map (fun p => if w.testBit (k - 1 - p) then '1' else '0') := by
  intro k
  induction k with
  | zero =>
    intro w hw
    have : w = 0 := by omega
    subst this
    rfl
  | succ k ih =>
    intro w hw
    by_cases hn : w = 0
    · subst hn
      have h0 : binDigits 0 = [] := rfl
      rw [h0, List.append_nil]
      symm
      rw [List.eq_replicate_iff]
      refine ⟨by simp [h0], ?_⟩
      intro b hb
      obtain ⟨p, -, rfl⟩ := List.mem_map.mp hb
      simp [Nat.zero_testBit]
    · have hdigits := binDigits_rec w hn
      have hhalf : w / 2 < 2 ^ k := by
        rw [Nat.div_lt_iff_lt_mul (by norm_num)]
        rw [Nat.pow_succ] at hw
        exact hw
      have hrhs : (List.range (k + 1)).map
            (fun p => if w.testBit (k + 1 - 1 - p) then '1' else '0') =
          (List.range k).map (fun p => if (w / 2).testBit (k - 1 - p) then '1' else '0') ++
            [if w.testBit 0 then '1' else '0'] := by
        rw [show List.range (k + 1) = List.range k ++ [k] from List.range_succ k]
        rw [List.map_append]
        congr 1
        · apply List.map_congr_left
          intro p hp
          have hp' : p < k := List.mem_range.mp hp
          rw [Nat.testBit_div_two]
          have harg : k + 1 - 1 - p = k - 1 - p + 1 := by omega
          rw [harg]
        · simp
      rw [hrhs, hdigits]
      have hlen : (binDigits (w / 2) ++ [if w % 2 == 1 then '1' else '0']).length =
          (binDigits (w / 2)).length + 1 := by simp
      rw [hlen]
      have hsub : k + 1 - ((binDigits (w / 2)).length + 1) = k - (binDigits (w / 2)).length := by
        omega
      rw [hsub, ← List.append_assoc, ih (w / 2) hhalf]
      congr 1
      rw [Nat.testBit_zero]
      rfl

end BitmapIndex

/-- C7: for a present key, `getAsBinary` returns one string per word, in
word order, each exactly 32 characters, zero-padded, with bit 31 leftmost
and bit 0 rightmost; on the demo single-word set `\x7b1,3,5,7,9\x7d` it
returns `["00000000000000000000001010101010"]`. -/
theorem get_as_binary_spec (s : BitmapIndex) (k : String) (e : List Nat)
    (h : BitmapIndex.lookup s.index k = some e) (hw : ∀ w ∈ e, w < 2 ^ 32) :
    s.get_as_binary k = some (e.map BitmapIndex.format032b) ∧
    (∀ w ∈ e, (BitmapIndex.format032b w).length = 32 ∧
      BitmapIndex.format032b w =
        String.mk ((List.range 32).map (fun p => if w.testBit (31 - p) then '1' else '0'))) ∧
    demoState.get_as_binary "pending" = some ["00000000000000000000001010101010"] := by
  refine ⟨?_, ?_, by decide⟩
  · simp [BitmapIndex.get_as_binary, h]
  · intro w hwmem
    have hw32 := hw w hwmem
    have hpad := BitmapIndex.padded_binDigits 32 w hw32
    have hfmt : BitmapIndex.format032b w =
        String.mk ((List.range 32).map (fun p => if w.testBit (31 - p) then '1' else '0')) := by
      unfold BitmapIndex.format032b
      congr 1
    refine ⟨?_, hfmt⟩
    rw [hfmt]
    show ((List.range 32).map (fun p => if w.testBit (31 - p) then '1' else '0')).length = 32
    simp

/-- Witness for C7 on the demo state. -/
theorem get_as_binary_spec_witness :
    BitmapIndex.lookup demoState.index "pending" = some (demoState.entryOf "pending") ∧
    (∀ w ∈ demoState.entryOf "pending", w < 2 ^ 32) ∧
    demoState.get_as_binary "pending" =
      some ((demoState.entryOf "pending").map BitmapIndex.format032b) :=
  ⟨by decide, by decide,
   (get_as_binary_spec demoState "pending" (demoState.entryOf "pending")
     (by decide) (by decide)).1⟩

namespace BitmapIndex

lemma entryOf_insert_self (s : BitmapIndex) (k : String) (n : Nat) :
    (s.insert k n).entryOf k = updEntry (s.entryOf k) n := by
  simp [entryOf, lookup_insert_self]

lemma entryOf_insert_ne (s : BitmapIndex) (k k' : String) (n : Nat) (h : k' ≠ k) :
    (s.insert k n).entryOf k' = s.entryOf k' := by
  simp [entryOf, lookup_insert_ne _ _ _ _ h]

lemma length_entryOf_insert_le (s : BitmapIndex) (k k' : String) (n : Nat) :
    (s.entryOf k').length ≤ ((s.insert k n).entryOf k').length := by
  by_cases h : k' = k
  · subst h
    rw [entryOf_insert_self, length_updEntry]
    omega
  · rw [entryOf_insert_ne _ _ _ _ h]

end BitmapIndex

lemma length_entryOf_monotone (tr : Trace) (k : String) : ∀ ext : Trace,
    ((runTrace tr).entryOf k).length ≤ ((runTrace (tr ++ ext)).entryOf k).length := by
  intro ext
  induction ext using List.reverseRecOn with
  | nil => simp
  | append_singleton ext p ih =>
    have : tr ++ (ext ++ [p]) = (tr ++ ext) ++ [p] := by simp
    rw [this, runTrace_snoc]
    exact le_trans ih (BitmapIndex.length_entryOf_insert_le _ _ _ _)

/-- C8: invariants of the word vectors — on every reachable state a present
key's vector length is `maxId / 32 + 1` for the largest id ever inserted;
an insert fills any newly appended word below the target with zero and puts
exactly the inserted bit in word `id / 32`; and no vector ever shrinks
across further operations. -/
theorem entry_length_invariant :
    (∀ (tr : Trace) (k : String) (e : List Nat),
      BitmapIndex.lookup (runTrace tr).index k = some e →
      e.length = maxIdOf tr k / 32 + 1) ∧
    (∀ (s : BitmapIndex) (k : String) (n i : Nat),
      (s.entryOf k).length ≤ i →
      ((s.insert k n).entryOf k).getD i 0 = if i = n / 32 then 1 <<< (n % 32) else 0) ∧
    (∀ (tr ext : Trace) (k : String),
      ((runTrace tr).entryOf k).length ≤ ((runTrace (tr ++ ext)).entryOf k).length) := by
  refine ⟨?_, ?_, ?_⟩
  · intro tr k e h
    exact (keyInv_some tr k e h).2.2.1
  · intro s k n i hi
    rw [BitmapIndex.entryOf_insert_self, BitmapIndex.getD_updEntry,
      BitmapIndex.getD_eq_zero_of_le _ _ hi]
    by_cases h : i = n / 32 <;> simp [h]
  · intro tr ext k
    exact length_entryOf_monotone tr k ext

/-- Witness for C8 at concrete inputs. -/
theorem entry_length_invariant_witness :
    (BitmapIndex.lookup (runTrace [("a", 40)]).index "a" = some [0, 2 ^ 8] ∧
      ([0, 2 ^ 8] : List Nat).length = maxIdOf [("a", 40)] "a" / 32 + 1) ∧
    ((BitmapIndex.new.entryOf "a").length ≤ 1 ∧
      ((BitmapIndex.new.insert "a" 40).entryOf "a").getD 1 0 =
        if 1 = 40 / 32 then 1 <<< (40 % 32) else 0) ∧
    ((runTrace [("a", 0)]).entryOf "a").length ≤
      ((runTrace ([("a", 0)] ++ [("a", 40)])).entryOf "a").length :=
  ⟨⟨by decide, entry_length_invariant.1 [("a", 40)] "a" [0, 2 ^ 8] (by decide)⟩,
   ⟨by decide, entry_length_invariant.2.1 BitmapIndex.new "a" 40 1 (by decide)⟩,
   entry_length_invariant.2.2 [("a", 0)] [("a", 40)] "a"⟩

namespace BitmapIndex

/-! ### Set semantics of insertion -/

lemma ext_of_getD (l1 l2 : List Nat) (hlen : l1.length = l2.length)
    (h : ∀ i, l1.getD i 0 = l2.getD i 0) : l1 = l2 := by
  apply List.ext_getElem hlen
  intro i h1 h2
  have hi := h i
  rwa [List.getD_eq_getElem l1 0 h1, List.getD_eq_getElem l2 0 h2] at hi

lemma updEntry_idem (e : List Nat) (a : Nat) :
    updEntry (updEntry e a) a = updEntry e a := by
  apply ext_of_getD
  · simp only [length_updEntry]
    omega
  · intro i
    simp only [getD_updEntry]
    by_cases h : i = a / 32 <;> simp [h, Nat.lor_assoc, Nat.or_self]

lemma length_foldl_updEntry : ∀ (ids : List Nat) (e : List Nat),
    (ids.foldl updEntry e).length = max e.length (supLen ids) := by
  intro ids
  induction ids with
  | nil => intro e; simp [supLen]
  | cons a ids ih =>
    intro e
    show (ids.foldl updEntry (updEntry e a)).length = _
    rw [ih, length_updEntry]
    show _ = max e.length (max (a / 32 + 1) (supLen ids))
    omega

lemma testBit_foldl_updEntry : ∀ (ids : List Nat) (e : List Nat) (i j : Nat),
    ((ids.foldl updEntry e).getD i 0).testBit j ↔
      ((e.getD i 0).testBit j ∨ ∃ m ∈ ids, i = m / 32 ∧ j = m % 32) := by
  intro ids
  induction ids with
  | nil => intro e i j; simp
  | cons a ids ih =>
    intro e i j
    show ((ids.foldl updEntry (updEntry e a)).getD i 0).testBit j ↔ _
    rw [ih, getD_updEntry]
    by_cases h : i = a / 32
    · rw [if_pos h, Nat.testBit_lor, testBit_mask]
      simp only [Bool.or_eq_true, decide_eq_true_eq, List.mem_cons]
      constructor
      · rintro ((hb | rfl) | ⟨m, hm, hi, hj⟩)
        · exact Or.inl hb
        · exact Or.inr ⟨a, Or.inl rfl, h, rfl⟩
        · exact Or.inr ⟨m, Or.inr hm, hi, hj⟩
      · rintro (hb | ⟨m, rfl | hm, hi, hj⟩)
        · exact Or.inl (Or.inl hb)
        · exact Or.inl (Or.inr hj)
        · exact Or.inr ⟨m, hm, hi, hj⟩
    · rw [if_neg h]
      simp only [List.mem_cons]
      constructor
      · rintro (hb | ⟨m, hm, hi, hj⟩)
        · exact Or.inl hb
        · exact Or.inr ⟨m, Or.inr hm, hi, hj⟩
      · rintro (hb | ⟨m, rfl | hm, hi, hj⟩)
        · exact Or.inl hb
        · exact absurd hi h
        · exact Or.inr ⟨m, hm, hi, hj⟩

lemma le_supLen : ∀ (ids : List Nat) (m : Nat), m ∈ ids → m / 32 + 1 ≤ supLen ids := by
  intro ids
  induction ids with
  | nil => intro m hm; exact absurd hm (List.not_mem_nil m)
  | cons a ids ih =>
    intro m hm
    show _ ≤ max (a / 32 + 1) (supLen ids)
    rcases List.mem_cons.mp hm with rfl | hm
    · omega
    · have := ih m hm
      omega

lemma supLen_le : ∀ (ids : List Nat) (x : Nat), (∀ m ∈ ids, m / 32 + 1 ≤ x) →
    supLen ids ≤ x := by
  intro ids
  induction ids with
  | nil => intro x _; simp [supLen]
  | cons a ids ih =>
    intro x h
    show max (a / 32 + 1) (supLen ids) ≤ x
    have h1 := h a (List.mem_cons_self a ids)
    have h2 := ih x (fun m hm => h m (List.mem_cons_of_mem a hm))
    omega

lemma supLen_congr (ids1 ids2 : List Nat) (h : ∀ m, m ∈ ids1 ↔ m ∈ ids2) :
    supLen ids1 = supLen ids2 := by
  apply Nat.le_antisymm
  · exact supLen_le _ _ (fun m hm => le_supLen _ m ((h m).mp hm))
  · exact supLen_le _ _ (fun m hm => le_supLen _ m ((h m).mpr hm))

lemma foldl_updEntry_congr (ids1 ids2 : List Nat) (e : List Nat)
    (h : ∀ m, m ∈ ids1 ↔ m ∈ ids2) :
    ids1.foldl updEntry e = ids2.foldl updEntry e := by
  apply ext_of_getD
  · rw [length_foldl_updEntry, length_foldl_updEntry, supLen_congr ids1 ids2 h]
  · intro i
    apply Nat.eq_of_testBit_eq
    intro j
    have h1 := testBit_foldl_updEntry ids1 e i j
    have h2 := testBit_foldl_updEntry ids2 e i j
    rw [Bool.eq_iff_iff, h1, h2]
    constructor
    · rintro (hb | ⟨m, hm, hi, hj⟩)
      · exact Or.inl hb
      · exact Or.inr ⟨m, (h m).mp hm, hi, hj⟩
    · rintro (hb | ⟨m, hm, hi, hj⟩)
      · exact Or.inl hb
      · exact Or.inr ⟨m, (h m).mpr hm, hi, hj⟩

lemma insert_insert_same (s : BitmapIndex) (k : String) (n : Nat) :
    (s.insert k n).insert k n = s.insert k n := by
  rw [insert_def (s.insert k n) k n, entryOf_insert_self, updEntry_idem]
  show BitmapIndex.mk (setKey (setKey s.index k (updEntry (s.entryOf k) n)) k
    (updEntry (s.entryOf k) n)) = _
  rw [setKey_setKey]
  rfl

lemma batch_insert_from_setKey (k : String) : ∀ (ids : List Nat)
    (m : List (String × List Nat)) (v : List Nat),
    (BitmapIndex.mk (setKey m k v)).batch_insert k ids =
      ⟨setKey m k (ids.foldl updEntry v)⟩ := by
  intro ids
  induction ids with
  | nil => intro m v; rfl
  | cons a ids ih =>
    intro m v
    show ((BitmapIndex.mk (setKey m k v)).insert k a).batch_insert k ids = _
    have hstep : (BitmapIndex.mk (setKey m k v)).insert k a =
        ⟨setKey m k (updEntry v a)⟩ := by
      rw [insert_def]
      show BitmapIndex.mk (setKey (setKey m k v) k
        (updEntry ((BitmapIndex.mk (setKey m k v)).entryOf k) a)) = _
      rw [setKey_setKey]
      have : (BitmapIndex.mk (setKey m k v)).entryOf k = v := by
        simp [entryOf, lookup_setKey_self]
      rw [this]
    rw [hstep, ih]
    rfl

lemma batch_insert_nonempty (s : BitmapIndex) (k : String) (a : Nat) (ids : List Nat) :
    s.batch_insert k (a :: ids) =
      ⟨setKey s.index k ((a :: ids).foldl updEntry (s.entryOf k))⟩ := by
  show (s.insert k a).batch_insert k ids = _
  rw [insert_def, batch_insert_from_setKey]
  rfl

end BitmapIndex

/-- C9: the state reached for a key depends only on the set of ids
inserted: a repeated `insert` leaves `list(k)` unchanged, and
`batchInsert` over two id lists with the same members — any order, any
duplicates — produces the same final state. -/
theorem insert_set_semantics (s : BitmapIndex) (k : String) (n : Nat)
    (ids1 ids2 : List Nat) (h : ∀ m, m ∈ ids1 ↔ m ∈ ids2) :
    ((s.insert k n).insert k n).list k = (s.insert k n).list k ∧
    s.batch_insert k ids1 = s.batch_insert k ids2 := by
  refine ⟨by rw [BitmapIndex.insert_insert_same], ?_⟩
  match ids1, ids2 with
  | [], [] => rfl
  | [], b :: l2 =>
    exact absurd ((h b).mpr (List.mem_cons_self b l2)) (List.not_mem_nil b)
  | a :: l1, [] =>
    exact absurd ((h a).mp (List.mem_cons_self a l1)) (List.not_mem_nil a)
  | a :: l1, b :: l2 =>
    rw [BitmapIndex.batch_insert_nonempty, BitmapIndex.batch_insert_nonempty]
    rw [BitmapIndex.foldl_updEntry_congr (a :: l1) (b :: l2) _ h]

/-- Witness for C9: same id set, different order, with duplicates. -/
theorem insert_set_semantics_witness :
    (∀ m, m ∈ ([1, 3, 3, 5] : List Nat) ↔ m ∈ ([5, 1, 3] : List Nat)) ∧
    (((BitmapIndex.new.insert "a" 3).insert "a" 3).list "a" =
      (BitmapIndex.new.insert "a" 3).list "a" ∧
     BitmapIndex.new.batch_insert "a" [1, 3, 3, 5] =
      BitmapIndex.new.batch_insert "a" [5, 1, 3]) :=
  ⟨by intro m; simp; omega,
   insert_set_semantics BitmapIndex.new "a" 3 [1, 3, 3, 5] [5, 1, 3]
     (by intro m; simp; omega)⟩

end BitWasm
